import Mathlib

/-!
Verification of the translation coordination manager of `adonisjs-i18n`
(file `src/i18n_manager.ts`).

The manager is embedded shallowly:

* JavaScript plain objects used as string-keyed dictionaries become
  association lists (`List (String × α)`) whose list order is the object's
  key insertion order, with `objGet` / `objSet` / `objAssign` mirroring
  property read, property write and `Object.assign`.
* The mutable `I18nManager` instance becomes an explicit record threaded
  through the operations; `async` methods that can reject become
  `Except String` valued functions.  All in-place mutations performed by
  `reloadTranslations` happen after its single `await` (the `Promise.all`
  of the loader invocations) and none of the statements after that point
  can throw, so a faithful embedding applies the whole batch of mutations
  only on the success path.
* Loader factories and formatter factories are functions stored in the
  registries; a loader factory combined with its `load()` call is a
  function from the configuration to the loader outcome.
* JavaScript truthiness is modelled where the source relies on it: the
  `||` on strings at `fallbackLocales[locale] || defaultLocale` treats the
  empty string as absent, and the `|| null` on the negotiator result does
  the same.
-/

set_option maxHeartbeats 1000000

/-! ## JavaScript object primitives -/

/-- Property read on a JavaScript object modelled as an association list
(first binding wins; a well-formed object has unique keys). -/
def objGet {α : Type} : List (String × α) → String → Option α
  | [], _ => none
  | (k', v) :: rest, k => if k' = k then some v else objGet rest k

/-- Property write on a JavaScript object: overwrite the binding in place
when the key exists, append it otherwise (insertion order is preserved,
as for JavaScript string-keyed objects). -/
def objSet {α : Type} : List (String × α) → String → α → List (String × α)
  | [], k, v => [(k, v)]
  | (k', v') :: rest, k, v =>
    if k' = k then (k, v) :: rest else (k', v') :: objSet rest k v

/-- The effect of `Object.assign(target, src)`: copy every binding of
`src` into `target` in iteration order, overwriting existing keys. -/
def objAssign {α : Type} (target : List (String × α)) (src : List (String × α)) :
    List (String × α) :=
  src.foldl (fun t kv => objSet t kv.1 kv.2) target

/-- Last binding of a key in an association list.  When keys are unique it
agrees with `objGet`; it describes the net effect of `objAssign`. -/
def lookupLast {α : Type} : List (String × α) → String → Option α
  | [], _ => none
  | (k', v) :: rest, k =>
    match lookupLast rest k with
    | some w => some w
    | none => if k' = k then some v else none

/-- First-biased choice on options, the shape produced by overwriting
merges (the left argument is the newer value). -/
def oor {α : Type} : Option α → Option α → Option α
  | some a, _ => some a
  | none, b => b

/-! ## Data model (from `I18nConfig` and the `I18nManager` fields) -/

/-- Configuration entry for one catalog source in `config.loaders`; only
the `enabled` flag is inspected by the manager, the remaining options are
consumed by the (external) loader implementations. -/
structure LoaderConfig where
  enabled : Bool
  deriving DecidableEq, Repr

/-- Translation data for one locale: key to message-template mapping. -/
abbrev TranslationsMap := List (String × String)

/-- Translation store shape: locale to (key to message) mapping.  Both the
store held by the manager and each loader's result have this shape. -/
abbrev Translations := List (String × TranslationsMap)

/-- The i18n configuration (`I18nConfig`), read-only for the manager. -/
structure I18nConfig where
  defaultLocale : String
  supportedLocales : Option (List String) := none
  fallbackLocales : Option (List (String × String)) := none
  loaders : List (String × LoaderConfig) := []
  translationsFormat : String := "icu"
  fallback : Option (String → String → Option String) := none

/-- The manager state (`I18nManager` private fields), parameterised by the
type `F` of formatter instances, which are opaque to the manager.  A
loader registry entry is the factory composed with the `load()` call of
the loader it builds: configuration in, loader outcome out. -/
structure I18nManager (F : Type) where
  config : I18nConfig
  formatters : List (String × (I18nConfig → F))
  formatter : Option F := none
  loaders : List (String × (I18nConfig → Except String Translations))
  inferredLocales : List String := []
  translations : Translations := []
  hasCachedTranslations : Bool := false

/-- The constructor: stores the configuration and starts with the built-in
registry entries (`icu` formatter, `fs` loader — both external
collaborators, so their factories are parameters of the embedding), an
empty store, no inferred locales, no cached formatter and the cached flag
down. -/
def newManager {F : Type} (config : I18nConfig) (icuFactory : I18nConfig → F)
    (fsFactory : I18nConfig → Except String Translations) : I18nManager F :=
  { config := config
    formatters := [("icu", icuFactory)]
    loaders := [("fs", fsFactory)] }

/-! ## Queries (lines 110-149 and 248-283 of the source) -/

/-- Source line 111: the explicit configured list when present, the
inferred list otherwise (a configured array is always truthy in
JavaScript, even when empty). -/
def supportedLocales {F : Type} (m : I18nManager F) : List String :=
  match m.config.supportedLocales with
  | some locales => locales
  | none => m.inferredLocales

/-- Source line 120: the whole cached store, shared by reference. -/
def getTranslations {F : Type} (m : I18nManager F) : Translations :=
  m.translations

/-- Source line 127: the mapping for a locale, or an empty object. -/
def getTranslationsFor {F : Type} (m : I18nManager F) (locale : String) :
    TranslationsMap :=
  (objGet m.translations locale).getD []

/-- Source lines 134-149: lazily resolve, instantiate and cache the
formatter selected by `translationsFormat`; a missing factory is a
configuration error.  The returned manager carries the cache update. -/
def getFormatter {F : Type} (m : I18nManager F) :
    Except String (F × I18nManager F) :=
  match m.formatter with
  | some f => .ok (f, m)
  | none =>
    match objGet m.formatters m.config.translationsFormat with
    | none =>
      .error ("Invalid i18n formatter \"" ++ m.config.translationsFormat ++ "\"")
    | some factory =>
      let f := factory m.config
      .ok (f, { m with formatter := some f })

/-- Source lines 252-266: fallback locale resolution.  The `||` of the
source treats an empty-string mapping value as absent. -/
def getFallbackLocaleFor {F : Type} (m : I18nManager F) (locale : String) :
    String :=
  match m.config.fallbackLocales with
  | none => m.config.defaultLocale
  | some fallbacks =>
    match objGet fallbacks locale with
    | some fb => if fb = "" then m.config.defaultLocale else fb
    | none => m.config.defaultLocale

/-- Source line 282: delegate to the optional configured fallback-message
function. -/
def getFallbackMessage {F : Type} (m : I18nManager F)
    (identifier locale : String) : Option String :=
  match m.config.fallback with
  | none => none
  | some fb => fb identifier locale

/-- Source lines 297-298: register a custom loader, overwriting any
previous entry with the same name. -/
def extendLoader {F : Type} (m : I18nManager F) (name : String)
    (callback : I18nConfig → Except String Translations) : I18nManager F :=
  { m with loaders := objSet m.loaders name callback }

/-- Source line 300: register a custom formatter, overwriting any previous
entry with the same name. -/
def extendFormatter {F : Type} (m : I18nManager F) (name : String)
    (callback : I18nConfig → F) : I18nManager F :=
  { m with formatters := objSet m.formatters name callback }

/-! ## Loading and merging (lines 157-226 of the source) -/

/-- Source lines 170-173: the configured loader entries whose `enabled`
flag is set, in configuration declaration order. -/
def enabledLoaders (cfg : I18nConfig) : List (String × LoaderConfig) :=
  cfg.loaders.filter (fun entry => entry.2.enabled)

/-- Effectful map over a list in the `Except` monad, stopping at the first
error (the shape of both the synchronous `.map` phase and the
`Promise.all` collection phase). -/
def exceptMapM {α β : Type} (f : α → Except String β) :
    List α → Except String (List β)
  | [] => .ok []
  | x :: xs =>
    match f x with
    | .error e => .error e
    | .ok y =>
      match exceptMapM f xs with
      | .error e => .error e
      | .ok ys => .ok (y :: ys)

/-- Source lines 174-181: look up the factory for one enabled source and
start its load; an unregistered name is a configuration error thrown
synchronously, before `Promise.all` is awaited. -/
def resolveLoader {F : Type} (m : I18nManager F)
    (entry : String × LoaderConfig) :
    Except String (Except String Translations) :=
  match objGet m.loaders entry.1 with
  | none => .error ("Invalid i18n loader \"" ++ entry.1 ++ "\"")
  | some factory => .ok (factory m.config)

/-- Source lines 169-182: resolve every enabled source (configuration
errors surface here first, in declaration order), then collect all load
outcomes as `Promise.all` does — any rejection fails the whole load. -/
def loadStack {F : Type} (m : I18nManager F) :
    Except String (List Translations) :=
  match exceptMapM (resolveLoader m) (enabledLoaders m.config) with
  | .error e => .error e
  | .ok loads => exceptMapM id loads

/-- Source lines 215-217: append a locale to the inferred list unless it
is already present. -/
def pushNew (locales : List String) (locale : String) : List String :=
  if locale ∈ locales then locales else locales ++ [locale]

/-- The two pieces of manager state mutated by the merge loop of
`reloadTranslations`. -/
structure ReloadAccumulator where
  translations : Translations
  inferredLocales : List String

/-- Source lines 211-224, body of the inner `forEach`: record the locale
in the inferred list when new, initialise its store entry when absent and
`Object.assign` the source's mapping over it. -/
def mergeLang (acc : ReloadAccumulator) (entry : String × TranslationsMap) :
    ReloadAccumulator :=
  { inferredLocales := pushNew acc.inferredLocales entry.1
    translations :=
      objSet acc.translations entry.1
        (objAssign ((objGet acc.translations entry.1).getD []) entry.2) }

/-- Merge one source result into the accumulator, locale by locale in the
source's key order. -/
def mergeSource (acc : ReloadAccumulator) (source : Translations) :
    ReloadAccumulator :=
  source.foldl mergeLang acc

/-- Source lines 210-225, the outer `forEach`: merge every source result
in declaration order. -/
def mergeStack (acc : ReloadAccumulator) (stack : List Translations) :
    ReloadAccumulator :=
  stack.foldl mergeSource acc

/-- Source line 204: the keys of the configured fallback-locales mapping,
in declaration order (empty when the mapping is absent). -/
def fallbackKeys (cfg : I18nConfig) : List String :=
  match cfg.fallbackLocales with
  | some fallbacks => fallbacks.map Prod.fst
  | none => []

/-- Source lines 166-226: run every enabled loader; on success set the
cached flag, replace the store by the merge of the results over a fresh
store and recompute the inferred-locale list, seeded with the default
locale followed by the fallback keys.  On failure nothing after the
`await` runs, so no state changes. -/
def reloadTranslations {F : Type} (m : I18nManager F) :
    Except String (I18nManager F) :=
  match loadStack m with
  | .error e => .error e
  | .ok stack =>
    let acc :=
      mergeStack ⟨[], m.config.defaultLocale :: fallbackKeys m.config⟩ stack
    .ok { m with
          hasCachedTranslations := true
          translations := acc.translations
          inferredLocales := acc.inferredLocales }

/-- The manager observed by the caller after invoking
`reloadTranslations`, together with the surfaced error if any: on a
rejection the instance has not been mutated (every mutation of the method
sits after its only `await`). -/
def runReload {F : Type} (m : I18nManager F) :
    I18nManager F × Option String :=
  match reloadTranslations m with
  | .ok m' => (m', none)
  | .error e => (m, some e)

/-- Source lines 157-161: reload only when nothing is cached yet. -/
def loadTranslations {F : Type} (m : I18nManager F) :
    Except String (I18nManager F) :=
  if m.hasCachedTranslations then .ok m else reloadTranslations m

/-- Name of the first enabled source, in declaration order, that has no
registered factory (if any). -/
def firstMissingEnabled {F : Type} (m : I18nManager F) : Option String :=
  ((enabledLoaders m.config).find?
    (fun entry => (objGet m.loaders entry.1).isNone)).map Prod.fst

/-! ## Locale negotiation (lines 232-246 of the source)

The source delegates the actual `Accept-Language` matching to the external
`negotiator` package, which is not part of this repository's sources.  The
matching below is therefore modelled from the specification.  Strings are
parsed as character lists so that every operation is structural. -/

/-- The argument accepted by `getSupportedLocaleFor`: a single preference
string or an ordered sequence of preference strings. -/
inductive UserLanguage where
  | single (value : String)
  | many (values : List String)

/-- Comma-join of a list of strings, as characters. -/
def joinStrings : List String → List Char
  | [] => []
  | [s] => s.toList
  | s :: rest => s.toList ++ ',' :: joinStrings rest

/-- Source line 242: an array of preferences is joined with commas into a
single header value, a plain string is used as is. -/
def joinUserLanguage : UserLanguage → List Char
  | .single value => value.toList
  | .many values => joinStrings values

/-- Split a character list on a separator; the empty list yields one empty
group, as splitting an empty string does. -/
def splitOnChar (sep : Char) : List Char → List (List Char)
  | [] => [[]]
  | c :: rest =>
    match splitOnChar sep rest with
    | [] => if c = sep then [[], []] else [[c]]
    | g :: gs => if c = sep then [] :: g :: gs else (c :: g) :: gs

/-- Strip leading and trailing spaces. -/
def trimChars (l : List Char) : List Char :=
  ((l.dropWhile (fun c => c == ' ')).reverse.dropWhile
    (fun c => c == ' ')).reverse

/-- Digits-only character list to a natural number, `none` otherwise. -/
def parseNatDigits (l : List Char) : Option Nat :=
  if l.isEmpty || !l.all Char.isDigit then none
  else some (l.foldl (fun n c => n * 10 + (c.toNat - 48)) 0)

/-- Fractional digit block (at most three digits) scaled to
thousandths. -/
def parseFracMilli (l : List Char) : Option Nat :=
  if l.isEmpty || l.length > 3 || !l.all Char.isDigit then none
  else some ((l.foldl (fun n c => n * 10 + (c.toNat - 48)) 0) *
    (if l.length = 1 then 100 else if l.length = 2 then 10 else 1))

/-- Modelled from the spec: a quality value (as in a `;q=0.9` parameter)
parsed as thousandths, so that weights compare as rationals do. -/
def parseDecimalMilli (l : List Char) : Option Nat :=
  match splitOnChar '.' l with
  | [intPart] => (parseNatDigits intPart).map (· * 1000)
  | [intPart, fracPart] =>
    match parseNatDigits intPart, parseFracMilli fracPart with
    | some i, some f => some (i * 1000 + f)
    | _, _ => none
  | _ => none

/-- First `q=` parameter among an entry's parameters, parsed; `none` when
no quality parameter is present, `some none` when one is present but
malformed. -/
def findQuality : List (List Char) → Option (Option Nat)
  | [] => none
  | ('q' :: '=' :: value) :: _ => some (parseDecimalMilli value)
  | _ :: rest => findQuality rest

/-- Modelled from the spec: parse one comma-separated entry of an
`Accept-Language` value into a language tag and a weight in thousandths
(default 1000).  Entries with an empty tag or a malformed quality value
are unparseable and skipped. -/
def parsePrefEntry (raw : List Char) : Option (List Char × Nat) :=
  match (splitOnChar ';' raw).map trimChars with
  | [] => none
  | tag :: params =>
    if tag.isEmpty then none
    else
      match findQuality params with
      | none => some (tag, 1000)
      | some none => none
      | some (some w) => some (tag, w)

/-- Modelled from the spec: parse a whole `Accept-Language` value into
weighted preferences, dropping unparseable entries and entries whose
quality is zero (a zero quality marks a language as unacceptable). -/
def parseAcceptLanguage (header : List Char) : List (List Char × Nat) :=
  ((splitOnChar ',' header).filterMap parsePrefEntry).filter
    (fun e => e.2 != 0)

/-- Primary language subtag of a tag (the part before the first dash). -/
def primaryTag (t : List Char) : List Char :=
  t.takeWhile (fun c => c != '-')

/-- Modelled from the spec: case-insensitive tag matching with
region-subtag specificity — an exact match is most specific, a match on
the primary subtag alone less so, a wildcard least. -/
def specificity (prefTag : List Char) (supported : String) : Option Nat :=
  let p := prefTag.map Char.toLower
  let s := supported.toList.map Char.toLower
  if p = s then some 2
  else if p = ['*'] then some 0
  else if primaryTag p = s then some 1
  else if primaryTag s = p then some 1
  else none

/-- Strictly-better comparison on (weight, specificity) pairs: higher
weight wins, specificity breaks weight ties. -/
def betterQ (old new : Nat × Nat) : Bool :=
  decide (old.1 < new.1 ∨ (old.1 = new.1 ∧ old.2 < new.2))

/-- Best (weight, specificity) a supported locale achieves against the
parsed preferences, `none` when no preference matches it. -/
def scoreLocale (prefs : List (List Char × Nat)) (loc : String) :
    Option (Nat × Nat) :=
  prefs.foldl
    (fun best p =>
      match specificity p.1 loc with
      | none => best
      | some sp =>
        match best with
        | none => some (p.2, sp)
        | some b => if betterQ b (p.2, sp) then some (p.2, sp) else best)
    none

/-- One step of the scan over the supported locales: keep the running
best candidate unless the next locale scores strictly better. -/
def stepBest (score : String → Option (Nat × Nat))
    (best : Option (String × (Nat × Nat))) (loc : String) :
    Option (String × (Nat × Nat)) :=
  match score loc with
  | none => best
  | some q =>
    match best with
    | none => some (loc, q)
    | some b => if betterQ b.2 q then some (loc, q) else best

/-- Scan the supported locales keeping the first one achieving the best
score (earlier supported locales win ties). -/
def pickBestAux (score : String → Option (Nat × Nat)) :
    Option (String × (Nat × Nat)) → List String → Option (String × (Nat × Nat))
  | best, [] => best
  | best, loc :: rest => pickBestAux score (stepBest score best loc) rest

/-- The supported locale with the best score, if any scores at all. -/
def pickBest (supported : List String)
    (score : String → Option (Nat × Nat)) : Option String :=
  (pickBestAux score none supported).map (·.1)

/-- Modelled from the spec: the `negotiator` package's language selection
— the highest-weighted supported locale matching the parsed weighted
preferences, `none` when nothing matches. -/
def negotiateLanguage (header : List Char) (supported : List String) :
    Option String :=
  pickBest supported (scoreLocale (parseAcceptLanguage header))

/-- Source lines 232-246: join the preferences, negotiate against
`supportedLocales()` and turn a missing (or empty, via the trailing
`|| null`) result into `none`.  The manager state is read, never
written. -/
def getSupportedLocaleFor {F : Type} (m : I18nManager F)
    (userLanguage : UserLanguage) : Option String :=
  match negotiateLanguage (joinUserLanguage userLanguage)
      (supportedLocales m) with
  | none => none
  | some r => if r = "" then none else some r
/-! ## Concrete managers used to instantiate the theorems -/

/-- Source result of the first sample loader. -/
def wresultA : Translations :=
  [("en", [("welcome", "Hi")]), ("fr", [("welcome", "Salut")])]

/-- Source result of the second sample loader; its `en.welcome` overlaps
with the first loader's. -/
def wresultB : Translations :=
  [("en", [("welcome", "Bonjour"), ("bye", "Bye")])]

/-- Loader factory returning the first sample result. -/
def wloaderA : I18nConfig → Except String Translations := fun _ => .ok wresultA

/-- Loader factory returning the second sample result. -/
def wloaderB : I18nConfig → Except String Translations := fun _ => .ok wresultB

/-- Loader factory whose load always rejects. -/
def wfailLoader : I18nConfig → Except String Translations :=
  fun _ => .error "disk error"

/-- Loader factory returning no translations. -/
def wemptyLoader : I18nConfig → Except String Translations := fun _ => .ok []

/-- Loader factory discovering the locales en, fr and es. -/
def wdiscoverLoader : I18nConfig → Except String Translations :=
  fun _ => .ok [("en", []), ("fr", []), ("es", [])]

/-- Formatter factory producing a unit formatter. -/
def wicuUnit : I18nConfig → Unit := fun _ => ()

/-- Formatter factory producing the number 42 as its instance. -/
def wicuNat : I18nConfig → Nat := fun _ => 42

/-- Manager with two enabled overlapping sources declared in the order
a, b. -/
def wmgr1 : I18nManager Unit :=
  { config := { defaultLocale := "en"
                loaders := [("a", ⟨true⟩), ("b", ⟨true⟩)] }
    formatters := [("icu", wicuUnit)]
    loaders := [("a", wloaderA), ("b", wloaderB)] }

/-- The stack the two sources of `wmgr1` produce. -/
def wstack1 : List Translations := [wresultA, wresultB]

/-- The manager observed after reloading `wmgr1`. -/
def wres1 : I18nManager Unit := (runReload wmgr1).1

/-- Manager with one enabled source whose load rejects, and a non-empty
prior store to make preservation observable. -/
def wmgr2 : I18nManager Unit :=
  { config := { defaultLocale := "en"
                loaders := [("a", ⟨true⟩)] }
    formatters := [("icu", wicuUnit)]
    loaders := [("a", wfailLoader)]
    translations := [("en", [("hello", "old")])]
    hasCachedTranslations := true }

/-- Manager whose default locale also appears among the fallback-locales
keys (the C3 duplicate scenario). -/
def cex3mgr : I18nManager Unit :=
  { config := { defaultLocale := "en"
                fallbackLocales := some [("en", "fr")] }
    formatters := [("icu", wicuUnit)]
    loaders := [("fs", wemptyLoader)] }

/-- Manager with a fallback key distinct from the default locale and a
source discovering en, fr and es. -/
def wmgr3 : I18nManager Unit :=
  { config := { defaultLocale := "en"
                fallbackLocales := some [("fr-CA", "fr")]
                loaders := [("fs", ⟨true⟩)] }
    formatters := [("icu", wicuUnit)]
    loaders := [("fs", wdiscoverLoader)] }

/-- The stack the source of `wmgr3` produces. -/
def wstack3 : List Translations := [[("en", []), ("fr", []), ("es", [])]]

/-- The manager observed after reloading `wmgr3`. -/
def wres3 : I18nManager Unit := (runReload wmgr3).1

/-- Manager with an explicit supported-locales list differing from its
inferred list. -/
def wmgr4 : I18nManager Unit :=
  { config := { defaultLocale := "en"
                supportedLocales := some ["en", "fr"] }
    formatters := [("icu", wicuUnit)]
    loaders := [("fs", wemptyLoader)]
    inferredLocales := ["de"] }

/-- Manager whose fallback map sends fr to the empty string (the C5
JavaScript-falsiness scenario). -/
def cex5mgr : I18nManager Unit :=
  { config := { defaultLocale := "en"
                fallbackLocales := some [("fr", "")] }
    formatters := [("icu", wicuUnit)]
    loaders := [("fs", wemptyLoader)] }

/-- Manager with an ordinary fallback mapping fr-CA to fr. -/
def wmgr5 : I18nManager Unit :=
  { config := { defaultLocale := "en"
                fallbackLocales := some [("fr-CA", "fr")] }
    formatters := [("icu", wicuUnit)]
    loaders := [("fs", wemptyLoader)] }

/-- Configuration used for the construction conjunct of C6. -/
def wcfg6 : I18nConfig := { defaultLocale := "en" }

/-- Manager that already cached its translations. -/
def wmgr6 : I18nManager Unit :=
  { config := wcfg6
    formatters := [("icu", wicuUnit)]
    loaders := [("fs", wemptyLoader)]
    hasCachedTranslations := true }

/-- Manager with an enabled loader name that has no registered factory. -/
def wmgr7 : I18nManager Unit :=
  { config := { defaultLocale := "en"
                loaders := [("db", ⟨true⟩)] }
    formatters := [("icu", wicuUnit)]
    loaders := [("fs", wemptyLoader)] }

/-- Manager whose formatter registry holds a natural-number factory under
the configured format name. -/
def wmgr8 : I18nManager Nat :=
  { config := { defaultLocale := "en" }
    formatters := [("icu", wicuNat)]
    loaders := [] }

/-- Manager with the explicit supported list en, fr. -/
def wmgr9 : I18nManager Unit :=
  { config := { defaultLocale := "en"
                supportedLocales := some ["en", "fr"] }
    formatters := [("icu", wicuUnit)]
    loaders := [("fs", wemptyLoader)] }

/-- Manager whose single configured loader is disabled. -/
def wmgr10 : I18nManager Unit :=
  { config := { defaultLocale := "en"
                fallbackLocales := some [("fr-CA", "fr")]
                loaders := [("fs", ⟨false⟩)] }
    formatters := [("icu", wicuUnit)]
    loaders := [("fs", wemptyLoader)] }

/-! ## Lemmas about the object primitives -/

theorem oor_none_right {α : Type} (a : Option α) : oor a none = a := by
  cases a <;> rfl

theorem oor_none_left {α : Type} (a : Option α) : oor none a = a := rfl

theorem oor_assoc {α : Type} (a b c : Option α) :
    oor (oor a b) c = oor a (oor b c) := by
  cases a <;> rfl

theorem objGet_objSet {α : Type} (o : List (String × α)) (k q : String) (v : α) :
    objGet (objSet o k v) q = if k = q then some v else objGet o q := by
  induction o with
  | nil => simp [objSet, objGet]
  | cons hd tl ih =>
    obtain ⟨k', v'⟩ := hd
    by_cases hk : k' = k
    · subst hk
      by_cases hq : k' = q <;> simp [objSet, objGet, hq]
    · by_cases hq : k' = q
      · subst hq
        have : ¬ k = k' := fun h => hk h.symm
        simp [objSet, objGet, hk, this]
      · simp [objSet, objGet, hk, hq, ih]

theorem objGet_objAssign {α : Type} (src : List (String × α))
    (target : List (String × α)) (q : String) :
    objGet (objAssign target src) q = oor (lookupLast src q) (objGet target q) := by
  induction src generalizing target with
  | nil => simp [objAssign, lookupLast, oor]
  | cons hd tl ih =>
    obtain ⟨k, v⟩ := hd
    have step : objAssign target ((k, v) :: tl) = objAssign (objSet target k v) tl := rfl
    rw [step, ih]
    show _ = oor (lookupLast ((k, v) :: tl) q) _
    rw [objGet_objSet]
    cases h : lookupLast tl q with
    | some w => simp [lookupLast, h, oor]
    | none =>
      by_cases hk : k = q <;> simp [lookupLast, h, oor, hk]

theorem objGet_eq_none_of_not_mem {α : Type} (o : List (String × α)) (q : String)
    (h : q ∉ o.map Prod.fst) : objGet o q = none := by
  induction o with
  | nil => rfl
  | cons hd tl ih =>
    obtain ⟨k, v⟩ := hd
    simp only [List.map_cons, List.mem_cons] at h
    push_neg at h
    have hk : k ≠ q := fun he => h.1 he.symm
    simp [objGet, hk, ih h.2]

theorem lookupLast_cons {α : Type} (k : String) (v : α)
    (tl : List (String × α)) (q : String) :
    lookupLast ((k, v) :: tl) q =
      oor (lookupLast tl q) (if k = q then some v else none) := by
  cases h : lookupLast tl q <;> simp [lookupLast, h, oor]

theorem lookupLast_eq_objGet {α : Type} (o : List (String × α)) (q : String)
    (h : (o.map Prod.fst).Nodup) : lookupLast o q = objGet o q := by
  induction o with
  | nil => rfl
  | cons hd tl ih =>
    obtain ⟨k, v⟩ := hd
    simp only [List.map_cons, List.nodup_cons] at h
    rw [lookupLast_cons, ih h.2]
    by_cases hk : k = q
    · subst hk
      have hnone : objGet tl k = none := objGet_eq_none_of_not_mem tl k h.1
      simp [objGet, hnone, oor]
    · cases hg : objGet tl q <;> simp [objGet, hk, hg, oor]

/-! ## Merge semantics -/

/-- Value stored for a locale and key in a translation-store shaped
object. -/
def storeValue (store : Translations) (lang key : String) : Option String :=
  match objGet store lang with
  | none => none
  | some m => objGet m key

/-- Value a single source result provides for a locale and key. -/
def srcValue (source : Translations) (lang key : String) : Option String :=
  match objGet source lang with
  | none => none
  | some m => objGet m key

/-- Value the last source (in declaration order) providing a locale/key
pair assigns to it: later sources take priority over earlier ones. -/
def lastSourceValue : List Translations → String → String → Option String
  | [], _, _ => none
  | source :: rest, lang, key =>
    oor (lastSourceValue rest lang key) (srcValue source lang key)

/-- A source result is a well-formed JavaScript object tree: locale keys
are unique and so are the keys of each locale's mapping. -/
def WfTranslations (source : Translations) : Prop :=
  (source.map Prod.fst).Nodup ∧ ∀ entry ∈ source, (entry.2.map Prod.fst).Nodup

instance (source : Translations) : Decidable (WfTranslations source) :=
  decidable_of_iff
    ((source.map Prod.fst).Nodup ∧ ∀ entry ∈ source, (entry.2.map Prod.fst).Nodup)
    Iff.rfl

theorem objGet_getD_empty (store : Translations) (lang key : String) :
    objGet ((objGet store lang).getD []) key = storeValue store lang key := by
  cases h : objGet store lang <;> simp [storeValue, h, objGet]

theorem storeValue_mergeLang (acc : ReloadAccumulator) (lang : String)
    (mp : TranslationsMap) (q key : String) :
    storeValue (mergeLang acc (lang, mp)).translations q key =
      if lang = q then oor (lookupLast mp key) (storeValue acc.translations q key)
      else storeValue acc.translations q key := by
  by_cases hl : lang = q
  · subst hl
    simp only [if_pos rfl]
    have h1 : objGet (mergeLang acc (lang, mp)).translations lang =
        some (objAssign ((objGet acc.translations lang).getD []) mp) := by
      show objGet (objSet acc.translations lang _) lang = _
      rw [objGet_objSet, if_pos rfl]
    rw [← objGet_getD_empty, h1, Option.getD_some, objGet_objAssign,
      objGet_getD_empty]
    exact (if_pos trivial).symm
  · simp only [if_neg hl]
    have h1 : objGet (mergeLang acc (lang, mp)).translations q =
        objGet acc.translations q := by
      show objGet (objSet acc.translations lang _) q = _
      rw [objGet_objSet, if_neg hl]
    unfold storeValue
    rw [h1]

theorem storeValue_mergeSource (source : Translations)
    (acc : ReloadAccumulator) (lang key : String)
    (hwf : WfTranslations source) :
    storeValue (mergeSource acc source).translations lang key =
      oor (srcValue source lang key) (storeValue acc.translations lang key) := by
  induction source generalizing acc with
  | nil => simp [mergeSource, srcValue, objGet, oor]
  | cons hd tl ih =>
    obtain ⟨lang1, m1⟩ := hd
    obtain ⟨hkeys, hmaps⟩ := hwf
    simp only [List.map_cons, List.nodup_cons] at hkeys
    have htl : WfTranslations tl :=
      ⟨hkeys.2, fun entry he => hmaps entry (List.mem_cons_of_mem _ he)⟩
    have hstep : mergeSource acc ((lang1, m1) :: tl) =
        mergeSource (mergeLang acc (lang1, m1)) tl := rfl
    rw [hstep, ih _ htl, storeValue_mergeLang]
    by_cases hl : lang1 = lang
    · subst hl
      have hnone : objGet tl lang1 = none :=
        objGet_eq_none_of_not_mem tl lang1 hkeys.1
      have hsrc_tl : srcValue tl lang1 key = none := by
        simp [srcValue, hnone]
      have hm1 : (m1.map Prod.fst).Nodup :=
        hmaps (lang1, m1) (List.mem_cons_self _ _)
      have hsrc : srcValue ((lang1, m1) :: tl) lang1 key = objGet m1 key := by
        simp [srcValue, objGet]
      rw [hsrc_tl, hsrc, if_pos rfl, oor_none_left,
        lookupLast_eq_objGet m1 key hm1]
    · have hsrc : srcValue ((lang1, m1) :: tl) lang key = srcValue tl lang key := by
        simp [srcValue, objGet, hl]
      rw [if_neg hl, hsrc]

theorem storeValue_mergeStack (stack : List Translations)
    (acc : ReloadAccumulator) (lang key : String)
    (hwf : ∀ source ∈ stack, WfTranslations source) :
    storeValue (mergeStack acc stack).translations lang key =
      oor (lastSourceValue stack lang key)
        (storeValue acc.translations lang key) := by
  induction stack generalizing acc with
  | nil => simp [mergeStack, lastSourceValue, oor]
  | cons hd tl ih =>
    have hstep : mergeStack acc (hd :: tl) = mergeStack (mergeSource acc hd) tl := rfl
    rw [hstep, ih _ (fun s hs => hwf s (List.mem_cons_of_mem _ hs)),
      storeValue_mergeSource hd acc lang key (hwf hd (List.mem_cons_self _ _))]
    show _ = oor (oor (lastSourceValue tl lang key) (srcValue hd lang key)) _
    rw [oor_assoc]

/-! ## Inferred-locale semantics -/

/-- Locales of a stack of source results, in encounter order (source by
source, each source's locale keys in its key order). -/
def langsOf : List Translations → List String
  | [] => []
  | source :: rest => source.map Prod.fst ++ langsOf rest

theorem inferred_mergeSource (source : Translations) (acc : ReloadAccumulator) :
    (mergeSource acc source).inferredLocales =
      List.foldl pushNew acc.inferredLocales (source.map Prod.fst) := by
  induction source generalizing acc with
  | nil => rfl
  | cons hd tl ih =>
    have hstep : mergeSource acc (hd :: tl) = mergeSource (mergeLang acc hd) tl := rfl
    rw [hstep, ih]
    rfl

theorem inferred_mergeStack (stack : List Translations) (acc : ReloadAccumulator) :
    (mergeStack acc stack).inferredLocales =
      List.foldl pushNew acc.inferredLocales (langsOf stack) := by
  induction stack generalizing acc with
  | nil => rfl
  | cons hd tl ih =>
    have hstep : mergeStack acc (hd :: tl) = mergeStack (mergeSource acc hd) tl := rfl
    rw [hstep, ih, inferred_mergeSource]
    show _ = List.foldl pushNew acc.inferredLocales (hd.map Prod.fst ++ langsOf tl)
    rw [List.foldl_append]

theorem pushNew_nodup (l : List String) (x : String) (h : l.Nodup) :
    (pushNew l x).Nodup := by
  unfold pushNew
  by_cases hx : x ∈ l
  · simpa [hx] using h
  · simp only [hx, if_false]
    rw [List.nodup_append]
    refine ⟨h, List.nodup_singleton x, ?_⟩
    intro a ha hax
    rw [List.mem_singleton] at hax
    exact hx (hax ▸ ha)

theorem foldl_pushNew_nodup (xs : List String) (l : List String) (h : l.Nodup) :
    (List.foldl pushNew l xs).Nodup := by
  induction xs generalizing l with
  | nil => exact h
  | cons x xs ih => exact ih _ (pushNew_nodup l x h)

theorem pushNew_head (l : List String) (x : String) (h : l ≠ []) :
    pushNew l x ≠ [] ∧ (pushNew l x).head? = l.head? := by
  unfold pushNew
  by_cases hx : x ∈ l
  · simp [hx, h]
  · cases l with
    | nil => exact absurd rfl h
    | cons a t => simp [hx]

theorem foldl_pushNew_head (xs : List String) (l : List String) (h : l ≠ []) :
    List.foldl pushNew l xs ≠ [] ∧
      (List.foldl pushNew l xs).head? = l.head? := by
  induction xs generalizing l with
  | nil => exact ⟨h, rfl⟩
  | cons x xs ih =>
    have hp := pushNew_head l x h
    have := ih (pushNew l x) hp.1
    exact ⟨this.1, this.2.trans hp.2⟩

/-! ## Lemmas about loader resolution and collection -/

theorem exceptMapM_ok_mem {α β : Type} (f : α → Except String β)
    (l : List α) (ys : List β) (h : exceptMapM f l = .ok ys)
    (x : α) (hx : x ∈ l) : ∃ y, f x = .ok y ∧ y ∈ ys := by
  induction l generalizing ys with
  | nil => cases hx
  | cons a l ih =>
    cases hfa : f a with
    | error e => simp [exceptMapM, hfa] at h
    | ok y0 =>
      cases hrest : exceptMapM f l with
      | error e => simp [exceptMapM, hfa, hrest] at h
      | ok ys' =>
        simp only [exceptMapM, hfa, hrest, Except.ok.injEq] at h
        subst h
        rcases List.mem_cons.mp hx with hxa | hxl
        · exact ⟨y0, hxa ▸ hfa, List.mem_cons_self _ _⟩
        · obtain ⟨y, hy, hmem⟩ := ih ys' hrest hxl
          exact ⟨y, hy, List.mem_cons_of_mem _ hmem⟩

theorem exceptMapM_error_of_mem {α β : Type} (f : α → Except String β)
    (l : List α) (x : α) (e : String) (hx : x ∈ l)
    (hfx : f x = .error e) : ∃ e', exceptMapM f l = .error e' := by
  induction l with
  | nil => cases hx
  | cons a l ih =>
    cases hfa : f a with
    | error e0 => exact ⟨e0, by simp [exceptMapM, hfa]⟩
    | ok y0 =>
      rcases List.mem_cons.mp hx with hxa | hxl
      · rw [hxa] at hfx
        rw [hfx] at hfa
        cases hfa
      · obtain ⟨e', he'⟩ := ih hxl
        exact ⟨e', by simp [exceptMapM, hfa, he']⟩

theorem exceptMapM_resolve_first_missing {F : Type} (m : I18nManager F)
    (l : List (String × LoaderConfig)) (name : String) (lc : LoaderConfig)
    (h : l.find? (fun entry => (objGet m.loaders entry.1).isNone) =
      some (name, lc)) :
    exceptMapM (resolveLoader m) l =
      .error ("Invalid i18n loader \"" ++ name ++ "\"") := by
  induction l with
  | nil => simp [List.find?] at h
  | cons a l ih =>
    cases hga : objGet m.loaders a.1 with
    | none =>
      have hfind : (a :: l).find?
          (fun entry => (objGet m.loaders entry.1).isNone) = some a := by
        simp [List.find?, hga]
      rw [hfind] at h
      have hname : a.1 = name := by
        have := h
        cases a
        cases this
        rfl
      have hres : resolveLoader m a =
          .error ("Invalid i18n loader \"" ++ name ++ "\"") := by
        unfold resolveLoader
        rw [hga, hname]
      simp [exceptMapM, hres]
    | some factory =>
      have hfind : (a :: l).find?
          (fun entry => (objGet m.loaders entry.1).isNone) =
          l.find? (fun entry => (objGet m.loaders entry.1).isNone) := by
        simp [List.find?, hga]
      rw [hfind] at h
      have hres : resolveLoader m a = .ok (factory m.config) := by
        unfold resolveLoader
        rw [hga]
      simp [exceptMapM, hres, ih h]

theorem loadStack_all_disabled {F : Type} (m : I18nManager F)
    (h : ∀ entry ∈ m.config.loaders, entry.2.enabled = false) :
    loadStack m = .ok [] := by
  have he : enabledLoaders m.config = [] := by
    unfold enabledLoaders
    rw [List.filter_eq_nil_iff]
    intro a ha
    simp [h a ha]
  unfold loadStack
  rw [he]
  rfl

theorem reload_ok_elim {F : Type} (m m' : I18nManager F)
    (stack : List Translations) (hload : loadStack m = .ok stack)
    (h : reloadTranslations m = .ok m') :
    m' = { m with
           hasCachedTranslations := true
           translations := (mergeStack
             ⟨[], m.config.defaultLocale :: fallbackKeys m.config⟩
             stack).translations
           inferredLocales := (mergeStack
             ⟨[], m.config.defaultLocale :: fallbackKeys m.config⟩
             stack).inferredLocales } := by
  unfold reloadTranslations at h
  rw [hload] at h
  cases h
  rfl

/-! ## Negotiation selection lemmas -/

theorem stepBest_skip (score : String → Option (Nat × Nat))
    (best : Option (String × (Nat × Nat))) (loc : String)
    (h : score loc = none) : stepBest score best loc = best := by
  unfold stepBest
  rw [h]

theorem betterQ_true {old new : Nat × Nat} (h : betterQ old new = true) :
    old.1 ≤ new.1 := by
  unfold betterQ at h
  rcases of_decide_eq_true h with hlt | ⟨heq, _⟩
  · exact Nat.le_of_lt hlt
  · exact Nat.le_of_eq heq

theorem betterQ_false {old new : Nat × Nat} (h : betterQ old new = false) :
    new.1 ≤ old.1 := by
  unfold betterQ at h
  have := of_decide_eq_false h
  exact Nat.le_of_not_lt (fun hlt => this (Or.inl hlt))

theorem pickBestAux_skip_all (score : String → Option (Nat × Nat))
    (l : List String) (best : Option (String × (Nat × Nat)))
    (h : ∀ loc ∈ l, score loc = none) : pickBestAux score best l = best := by
  induction l generalizing best with
  | nil => rfl
  | cons a l ih =>
    show pickBestAux score (stepBest score best a) l = best
    rw [stepBest_skip score best a (h a (List.mem_cons_self _ _))]
    exact ih best (fun loc hl => h loc (List.mem_cons_of_mem _ hl))

theorem pickBestAux_sound (score : String → Option (Nat × Nat))
    (l : List String) :
    ∀ best loc q, pickBestAux score best l = some (loc, q) →
      (best = some (loc, q) ∨ (loc ∈ l ∧ score loc = some q)) ∧
      (∀ b, best = some b → b.2.1 ≤ q.1) ∧
      (∀ loc' q', loc' ∈ l → score loc' = some q' → q'.1 ≤ q.1) := by
  induction l with
  | nil =>
    intro best loc q h
    refine ⟨Or.inl h, fun b hb => ?_,
      fun loc' q' h' => absurd h' (List.not_mem_nil _)⟩
    rw [hb] at h
    cases h
    exact Nat.le_refl _
  | cons a l ih =>
    intro best loc q h
    replace h : pickBestAux score (stepBest score best a) l = some (loc, q) := h
    cases hsa : score a with
    | none =>
      rw [stepBest_skip score best a hsa] at h
      obtain ⟨horigin, hbound, hrest⟩ := ih best loc q h
      refine ⟨?_, hbound, ?_⟩
      · rcases horigin with h1 | ⟨h2, h3⟩
        · exact Or.inl h1
        · exact Or.inr ⟨List.mem_cons_of_mem _ h2, h3⟩
      · intro loc' q' hm hs
        rcases List.mem_cons.mp hm with rfl | hm'
        · rw [hsa] at hs; cases hs
        · exact hrest loc' q' hm' hs
    | some qa =>
      cases hb : best with
      | none =>
        have hstep : stepBest score best a = some (a, qa) := by
          simp [stepBest, hsa, hb]
        rw [hstep] at h
        obtain ⟨horigin, hbound, hrest⟩ := ih (some (a, qa)) loc q h
        have hqa : qa.1 ≤ q.1 := hbound (a, qa) rfl
        refine ⟨?_, ?_, ?_⟩
        · rcases horigin with h1 | ⟨h2, h3⟩
          · cases h1
            exact Or.inr ⟨List.mem_cons_self _ _, hsa⟩
          · exact Or.inr ⟨List.mem_cons_of_mem _ h2, h3⟩
        · intro b hbb
          cases hbb
        · intro loc' q' hm hs
          rcases List.mem_cons.mp hm with rfl | hm'
          · rw [hsa] at hs
            cases hs
            exact hqa
          · exact hrest loc' q' hm' hs
      | some b0 =>
        cases hbq : betterQ b0.2 qa with
        | true =>
          have hstep : stepBest score best a = some (a, qa) := by
            simp [stepBest, hsa, hb, hbq]
          rw [hstep] at h
          obtain ⟨horigin, hbound, hrest⟩ := ih (some (a, qa)) loc q h
          have hqa : qa.1 ≤ q.1 := hbound (a, qa) rfl
          refine ⟨?_, ?_, ?_⟩
          · rcases horigin with h1 | ⟨h2, h3⟩
            · cases h1
              exact Or.inr ⟨List.mem_cons_self _ _, hsa⟩
            · exact Or.inr ⟨List.mem_cons_of_mem _ h2, h3⟩
          · intro b hbb
            cases hbb
            exact Nat.le_trans (betterQ_true hbq) hqa
          · intro loc' q' hm hs
            rcases List.mem_cons.mp hm with rfl | hm'
            · rw [hsa] at hs
              cases hs
              exact hqa
            · exact hrest loc' q' hm' hs
        | false =>
          have hstep : stepBest score best a = some b0 := by
            simp [stepBest, hsa, hb, hbq]
          rw [hstep] at h
          obtain ⟨horigin, hbound, hrest⟩ := ih (some b0) loc q h
          have hb0 : b0.2.1 ≤ q.1 := hbound b0 rfl
          refine ⟨?_, ?_, ?_⟩
          · rcases horigin with h1 | ⟨h2, h3⟩
            · exact Or.inl (hb ▸ h1)
            · exact Or.inr ⟨List.mem_cons_of_mem _ h2, h3⟩
          · intro b hbb
            cases hbb
            exact hb0
          · intro loc' q' hm hs
            rcases List.mem_cons.mp hm with rfl | hm'
            · rw [hsa] at hs
              cases hs
              exact Nat.le_trans (betterQ_false hbq) hb0
            · exact hrest loc' q' hm' hs

theorem pickBest_skip_all (supported : List String)
    (score : String → Option (Nat × Nat))
    (h : ∀ loc ∈ supported, score loc = none) :
    pickBest supported score = none := by
  unfold pickBest
  rw [pickBestAux_skip_all score supported none h]
  rfl

theorem pickBest_sound (supported : List String)
    (score : String → Option (Nat × Nat)) (loc : String)
    (h : pickBest supported score = some loc) :
    loc ∈ supported ∧ ∃ q, score loc = some q ∧
      ∀ loc' q', loc' ∈ supported → score loc' = some q' → q'.1 ≤ q.1 := by
  unfold pickBest at h
  cases haux : pickBestAux score none supported with
  | none =>
    rw [haux] at h
    cases h
  | some p =>
    rw [haux] at h
    simp only [Option.map_some'] at h
    injection h with h'
    subst h'
    obtain ⟨horigin, _, hrest⟩ :=
      pickBestAux_sound score supported none p.1 p.2 (by rw [haux])
    rcases horigin with h1 | ⟨h2, h3⟩
    · cases h1
    · exact ⟨h2, p.2, h3, hrest⟩
theorem stepBest_ne_none (score : String → Option (Nat × Nat))
    (best : Option (String × (Nat × Nat))) (loc : String)
    (h : best ≠ none) : stepBest score best loc ≠ none := by
  unfold stepBest
  cases hs : score loc with
  | none => exact h
  | some q =>
    cases hb : best with
    | none => exact absurd hb h
    | some b =>
      show ¬ (if betterQ b.2 q then some (loc, q) else some b) = none
      by_cases hbq : betterQ b.2 q = true
      · rw [if_pos hbq]
        intro hc
        cases hc
      · rw [if_neg hbq]
        intro hc
        cases hc

theorem stepBest_ne_none_of_score (score : String → Option (Nat × Nat))
    (best : Option (String × (Nat × Nat))) (loc : String) (q : Nat × Nat)
    (h : score loc = some q) : stepBest score best loc ≠ none := by
  unfold stepBest
  rw [h]
  cases hb : best with
  | none =>
    intro hc
    cases hc
  | some b =>
    show ¬ (if betterQ b.2 q then some (loc, q) else some b) = none
    by_cases hbq : betterQ b.2 q = true
    · rw [if_pos hbq]
      intro hc
      cases hc
    · rw [if_neg hbq]
      intro hc
      cases hc

theorem pickBestAux_ne_none (score : String → Option (Nat × Nat))
    (l : List String) :
    ∀ best, best ≠ none → pickBestAux score best l ≠ none := by
  induction l with
  | nil => intro best h; exact h
  | cons a l ih =>
    intro best h
    exact ih (stepBest score best a) (stepBest_ne_none score best a h)

theorem pickBestAux_ne_none_of_mem (score : String → Option (Nat × Nat))
    (l : List String) :
    ∀ best loc q, loc ∈ l → score loc = some q →
      pickBestAux score best l ≠ none := by
  induction l with
  | nil => intro best loc q h; cases h
  | cons a l ih =>
    intro best loc q hmem hscore
    rcases List.mem_cons.mp hmem with rfl | hmem'
    · exact pickBestAux_ne_none score l (stepBest score best loc)
        (stepBest_ne_none_of_score score best loc q hscore)
    · exact ih (stepBest score best a) loc q hmem' hscore

theorem pickBest_some_of_mem (supported : List String)
    (score : String → Option (Nat × Nat)) (loc : String) (q : Nat × Nat)
    (hmem : loc ∈ supported) (hscore : score loc = some q) :
    ∃ r, pickBest supported score = some r := by
  cases hp : pickBestAux score none supported with
  | none =>
    exact absurd hp
      (pickBestAux_ne_none_of_mem score supported none loc q hmem hscore)
  | some p =>
    refine ⟨p.1, ?_⟩
    unfold pickBest
    rw [hp]
    rfl


/-! ## Claim theorems -/

theorem objGet_getTranslationsFor {F : Type} (m : I18nManager F)
    (lang key : String) :
    objGet (getTranslationsFor m lang) key = storeValue m.translations lang key := by
  unfold getTranslationsFor
  exact objGet_getD_empty m.translations lang key

/-- C1: after a successful `reloadTranslations`, for every locale and key
the merged store's value is the value produced by the last source (in
configuration declaration order, the order of the loaded stack) that
contains that locale/key pair: each source's locale entry is created if
absent and its keys are copied in, overwriting earlier sources.  The
well-formedness hypothesis records that JavaScript objects have unique
keys. -/
theorem claim_C1_last_source_wins {F : Type} (m : I18nManager F)
    (stack : List Translations) (m' : I18nManager F) (lang key : String)
    (hload : loadStack m = .ok stack)
    (hwf : ∀ source ∈ stack, WfTranslations source)
    (hreload : reloadTranslations m = .ok m') :
    objGet (getTranslationsFor m' lang) key = lastSourceValue stack lang key := by
  have hm' := reload_ok_elim m m' stack hload hreload
  subst hm'
  rw [objGet_getTranslationsFor]
  show storeValue (mergeStack
    ⟨[], m.config.defaultLocale :: fallbackKeys m.config⟩ stack).translations
    lang key = _
  rw [storeValue_mergeStack stack _ lang key hwf]
  show oor (lastSourceValue stack lang key) (storeValue [] lang key) = _
  exact oor_none_right _

/-- C1 witness: two enabled overlapping sources declared in the order a,
b; the merged value of the shared key is the one source b produced. -/
theorem claim_C1_witness :
    objGet (getTranslationsFor wres1 "en") "welcome" = some "Bonjour" :=
  Eq.trans
    (claim_C1_last_source_wins wmgr1 wstack1 wres1 "en" "welcome" rfl
      (by decide) rfl)
    (by decide)

/-- C4: `supportedLocales()` returns exactly the explicit configured list
whenever one is configured — whatever the store or inferred list hold —
and the inferred list otherwise. -/
theorem claim_C4_supported_locales {F : Type} (m : I18nManager F) :
    (∀ locales, m.config.supportedLocales = some locales →
      supportedLocales m = locales) ∧
    (m.config.supportedLocales = none →
      supportedLocales m = m.inferredLocales) := by
  constructor
  · intro locales h
    unfold supportedLocales
    rw [h]
  · intro h
    unfold supportedLocales
    rw [h]

/-- C4 witness: a manager whose inferred list is de but whose explicit
configured list is en, fr. -/
theorem claim_C4_witness : supportedLocales wmgr4 = ["en", "fr"] :=
  (claim_C4_supported_locales wmgr4).1 ["en", "fr"] rfl

/-- C5 counterexample: with a configured fallback entry mapping fr to the
empty string, the key fr exists yet `getFallbackLocaleFor` returns the
default locale en instead of the entry's value, because the source's `||`
treats the empty string as falsy — refuting the claim that the configured
value is returned whenever the key exists. -/
theorem claim_C5_counterexample :
    cex5mgr.config.fallbackLocales = some [("fr", "")] ∧
    getFallbackLocaleFor cex5mgr "fr" = "en" ∧ "en" ≠ "" := by
  decide

/-- C5 (amended): `getFallbackLocaleFor` returns the default locale when
no fallback map is configured; with a map it returns the entry's value
when the key exists with a non-empty value, and the default locale when
the key is absent or its value is the empty string; it always returns a
string. -/
theorem claim_C5_fallback_locale {F : Type} (m : I18nManager F)
    (locale : String) :
    (m.config.fallbackLocales = none →
      getFallbackLocaleFor m locale = m.config.defaultLocale) ∧
    (∀ fallbacks fb, m.config.fallbackLocales = some fallbacks →
      objGet fallbacks locale = some fb → fb ≠ "" →
      getFallbackLocaleFor m locale = fb) ∧
    (∀ fallbacks fb, m.config.fallbackLocales = some fallbacks →
      objGet fallbacks locale = some fb → fb = "" →
      getFallbackLocaleFor m locale = m.config.defaultLocale) ∧
    (∀ fallbacks, m.config.fallbackLocales = some fallbacks →
      objGet fallbacks locale = none →
      getFallbackLocaleFor m locale = m.config.defaultLocale) := by
  refine ⟨?_, ?_, ?_, ?_⟩
  · intro h
    simp [getFallbackLocaleFor, h]
  · intro fallbacks fb h1 h2 h3
    simp [getFallbackLocaleFor, h1, h2, h3]
  · intro fallbacks fb h1 h2 h3
    simp [getFallbackLocaleFor, h1, h2, h3]
  · intro fallbacks h1 h2
    simp [getFallbackLocaleFor, h1, h2]

/-- C5 witness: an ordinary fallback entry is returned as configured. -/
theorem claim_C5_witness : getFallbackLocaleFor wmgr5 "fr-CA" = "fr" :=
  (claim_C5_fallback_locale wmgr5 "fr-CA").2.1 [("fr-CA", "fr")] "fr" rfl rfl
    (by decide)

/-- C6: the cached flag is false at construction; `loadTranslations` is a
no-op returning the manager unchanged when the flag is already set and
performs the full reload when it is not; `reloadTranslations` leaves the
flag set on every success. -/
theorem claim_C6_cached_flag {F : Type} (cfg : I18nConfig)
    (icuFactory : I18nConfig → F)
    (fsFactory : I18nConfig → Except String Translations) :
    (newManager cfg icuFactory fsFactory).hasCachedTranslations = false ∧
    (∀ m : I18nManager F, m.hasCachedTranslations = true →
      loadTranslations m = .ok m) ∧
    (∀ m : I18nManager F, m.hasCachedTranslations = false →
      loadTranslations m = reloadTranslations m) ∧
    (∀ m m' : I18nManager F, reloadTranslations m = .ok m' →
      m'.hasCachedTranslations = true) := by
  refine ⟨rfl, ?_, ?_, ?_⟩
  · intro m h
    unfold loadTranslations
    rw [h]
    rfl
  · intro m h
    unfold loadTranslations
    rw [h]
    rfl
  · intro m m' h
    cases hload : loadStack m with
    | error e =>
      unfold reloadTranslations at h
      rw [hload] at h
      cases h
    | ok stack =>
      rw [reload_ok_elim m m' stack hload h]

/-- C6 witness: a manager whose flag is already set is returned unchanged
by `loadTranslations`. -/
theorem claim_C6_witness : loadTranslations wmgr6 = .ok wmgr6 :=
  (claim_C6_cached_flag wcfg6 wicuUnit wemptyLoader).2.1 wmgr6 rfl

/-- C2: when any enabled source's load fails, `reloadTranslations` fails
with the error surfaced, and the manager the caller observes afterwards
has the same store (via `getTranslations`) and the same cached flag as
before the call — no partial mutation. -/
theorem claim_C2_failed_load_preserves_state {F : Type} (m : I18nManager F)
    (name : String) (lc : LoaderConfig)
    (factory : I18nConfig → Except String Translations) (e : String)
    (hmem : (name, lc) ∈ m.config.loaders) (hen : lc.enabled = true)
    (hfac : objGet m.loaders name = some factory)
    (hfail : factory m.config = .error e) :
    (∃ err, reloadTranslations m = .error err) ∧
    getTranslations (runReload m).1 = getTranslations m ∧
    (runReload m).1.hasCachedTranslations = m.hasCachedTranslations := by
  have henabled : (name, lc) ∈ enabledLoaders m.config := by
    unfold enabledLoaders
    rw [List.mem_filter]
    exact ⟨hmem, by simp [hen]⟩
  have hstack : ∃ err, loadStack m = .error err := by
    unfold loadStack
    cases h1 : exceptMapM (resolveLoader m) (enabledLoaders m.config) with
    | error e1 => exact ⟨e1, rfl⟩
    | ok loads =>
      obtain ⟨y, hy, hymem⟩ :=
        exceptMapM_ok_mem (resolveLoader m) _ loads h1 (name, lc) henabled
      have hyval : y = factory m.config := by
        unfold resolveLoader at hy
        simp only [hfac] at hy
        cases hy
        rfl
      have herr : id y = Except.error e := by
        rw [hyval]
        exact hfail
      obtain ⟨e', he'⟩ := exceptMapM_error_of_mem id loads y e hymem herr
      exact ⟨e', by show exceptMapM id loads = Except.error e'; exact he'⟩
  obtain ⟨err, herr⟩ := hstack
  have hrel : reloadTranslations m = .error err := by
    unfold reloadTranslations
    rw [herr]
  have hrun : runReload m = (m, some err) := by
    unfold runReload
    rw [hrel]
  exact ⟨⟨err, hrel⟩, by rw [hrun], by rw [hrun]⟩

/-- C2 witness: a manager with a cached store and an enabled rejecting
loader keeps its store and flag across the failed reload. -/
theorem claim_C2_witness :
    (∃ err, reloadTranslations wmgr2 = .error err) ∧
    getTranslations (runReload wmgr2).1 = getTranslations wmgr2 ∧
    (runReload wmgr2).1.hasCachedTranslations = wmgr2.hasCachedTranslations :=
  claim_C2_failed_load_preserves_state wmgr2 "a" ⟨true⟩ wfailLoader
    "disk error" (by decide) rfl rfl rfl

/-- C3 counterexample: with the default locale en also a key of the
configured fallback locales, a successful reload produces the inferred
list en, en — the list has a duplicate, refuting the claim that every
locale is appended at most once and the list never holds duplicates. -/
theorem claim_C3_counterexample :
    (runReload cex3mgr).1.inferredLocales = ["en", "en"] ∧
    ¬ (runReload cex3mgr).1.inferredLocales.Nodup ∧
    (runReload cex3mgr).2 = none := by
  decide

/-- C3 (amended): after every successful reload the inferred list equals
the default locale followed by the fallback-locales keys — both appended
unconditionally, with no deduplication between them — followed by the
locales discovered across the loaded sources in encounter order, each
appended only when not already present.  The list always begins with the
default locale, and it has no duplicates provided the fallback keys are
distinct and the default locale is not among them. -/
theorem claim_C3_inferred_locales {F : Type} (m : I18nManager F)
    (stack : List Translations) (m' : I18nManager F)
    (hload : loadStack m = .ok stack)
    (hreload : reloadTranslations m = .ok m') :
    m'.inferredLocales = List.foldl pushNew
      (m.config.defaultLocale :: fallbackKeys m.config) (langsOf stack) ∧
    m'.inferredLocales.head? = some m.config.defaultLocale ∧
    ((fallbackKeys m.config).Nodup →
      m.config.defaultLocale ∉ fallbackKeys m.config →
      m'.inferredLocales.Nodup) := by
  have hm' := reload_ok_elim m m' stack hload hreload
  subst hm'
  have heq : ({ m with
      hasCachedTranslations := true
      translations := (mergeStack
        ⟨[], m.config.defaultLocale :: fallbackKeys m.config⟩
        stack).translations
      inferredLocales := (mergeStack
        ⟨[], m.config.defaultLocale :: fallbackKeys m.config⟩
        stack).inferredLocales } : I18nManager F).inferredLocales =
      List.foldl pushNew (m.config.defaultLocale :: fallbackKeys m.config)
        (langsOf stack) := by
    show (mergeStack ⟨[], m.config.defaultLocale :: fallbackKeys m.config⟩
      stack).inferredLocales = _
    rw [inferred_mergeStack]
  refine ⟨heq, ?_, ?_⟩
  · rw [heq]
    exact (foldl_pushNew_head (langsOf stack)
      (m.config.defaultLocale :: fallbackKeys m.config) (by simp)).2
  · intro hnd hnotin
    rw [heq]
    exact foldl_pushNew_nodup (langsOf stack) _
      (List.nodup_cons.mpr ⟨hnotin, hnd⟩)

/-- C3 witness: with distinct fallback keys not containing the default
locale, the inferred list after reload has no duplicates. -/
theorem claim_C3_witness : wres3.inferredLocales.Nodup :=
  (claim_C3_inferred_locales wmgr3 wstack3 wres3 rfl rfl).2.2 (by decide)
    (by decide)

/-- C10: when no configured loader is enabled, `reloadTranslations`
succeeds, sets the cached flag, installs an empty store (so every locale
query returns an empty mapping) and sets the inferred list to the default
locale followed by the fallback-locales keys in declaration order. -/
theorem claim_C10_no_enabled_loaders {F : Type} (m : I18nManager F)
    (h : ∀ entry ∈ m.config.loaders, entry.2.enabled = false) :
    ∃ m', reloadTranslations m = .ok m' ∧
      m'.hasCachedTranslations = true ∧
      m'.translations = [] ∧
      (∀ locale, getTranslationsFor m' locale = []) ∧
      m'.inferredLocales =
        m.config.defaultLocale :: fallbackKeys m.config := by
  have hload := loadStack_all_disabled m h
  refine ⟨{ m with
      hasCachedTranslations := true
      translations := (mergeStack
        ⟨[], m.config.defaultLocale :: fallbackKeys m.config⟩ []).translations
      inferredLocales := (mergeStack
        ⟨[], m.config.defaultLocale :: fallbackKeys m.config⟩
        []).inferredLocales }, ?_, rfl, rfl, ?_, rfl⟩
  · unfold reloadTranslations
    rw [hload]
  · intro locale
    rfl

/-- C10 witness: a manager whose single configured loader is disabled
reloads to the empty store with the seed inferred list. -/
theorem claim_C10_witness :
    ∃ m', reloadTranslations wmgr10 = .ok m' ∧
      m'.hasCachedTranslations = true ∧
      m'.translations = [] ∧
      (∀ locale, getTranslationsFor m' locale = []) ∧
      m'.inferredLocales = "en" :: fallbackKeys wmgr10.config :=
  claim_C10_no_enabled_loaders wmgr10 (by decide)

/-- C7: an enabled loader name with no registered factory makes
`reloadTranslations` fail with the configuration error before any merge —
the caller still observes the untouched manager — while disabled loaders
are skipped entirely: when every configured loader is disabled the load
phase succeeds with no source consulted, registered or not. -/
theorem claim_C7_unknown_loader {F : Type} (m : I18nManager F) :
    (∀ name, firstMissingEnabled m = some name →
      runReload m = (m, some ("Invalid i18n loader \"" ++ name ++ "\""))) ∧
    ((∀ entry ∈ m.config.loaders, entry.2.enabled = false) →
      loadStack m = .ok []) := by
  constructor
  · intro name h
    unfold firstMissingEnabled at h
    rw [Option.map_eq_some'] at h
    obtain ⟨entry, hfind, hname⟩ := h
    obtain ⟨n, lc⟩ := entry
    have hn : n = name := hname
    subst hn
    have hmap := exceptMapM_resolve_first_missing m (enabledLoaders m.config)
      n lc hfind
    have hload : loadStack m =
        .error ("Invalid i18n loader \"" ++ n ++ "\"") := by
      unfold loadStack
      rw [hmap]
    have hrel : reloadTranslations m =
        .error ("Invalid i18n loader \"" ++ n ++ "\"") := by
      unfold reloadTranslations
      rw [hload]
    unfold runReload
    rw [hrel]
  · exact loadStack_all_disabled m

/-- C7 witness: the unregistered enabled loader name db fails the reload
with the configuration error and the manager is untouched. -/
theorem claim_C7_witness :
    runReload wmgr7 = (wmgr7, some "Invalid i18n loader \"db\"") :=
  (claim_C7_unknown_loader wmgr7).1 "db" rfl

/-- C8: `getFormatter` resolves the factory named by `translationsFormat`
on first use — failing with the configuration error when none is
registered — instantiates it with the full configuration and caches the
instance; any call on a manager carrying a cached instance returns that
same instance and changes nothing, so at most one instance is ever
created. -/
theorem claim_C8_formatter_singleton {F : Type} (m : I18nManager F) :
    (m.formatter = none →
      objGet m.formatters m.config.translationsFormat = none →
      getFormatter m = .error
        ("Invalid i18n formatter \"" ++ m.config.translationsFormat ++ "\"")) ∧
    (∀ factory, m.formatter = none →
      objGet m.formatters m.config.translationsFormat = some factory →
      getFormatter m = .ok (factory m.config,
        { m with formatter := some (factory m.config) })) ∧
    (∀ f m', getFormatter m = .ok (f, m') →
      m'.formatter = some f ∧ getFormatter m' = .ok (f, m')) := by
  refine ⟨?_, ?_, ?_⟩
  · intro h1 h2
    simp [getFormatter, h1, h2]
  · intro factory h1 h2
    simp [getFormatter, h1, h2]
  · intro f m' h
    cases hf : m.formatter with
    | some f0 =>
      have heq : getFormatter m = .ok (f0, m) := by
        simp [getFormatter, hf]
      rw [heq] at h
      have hp : f0 = f ∧ m = m' := by
        cases h
        exact ⟨rfl, rfl⟩
      obtain ⟨hpf, hpm⟩ := hp
      subst hpf
      subst hpm
      exact ⟨hf, heq⟩
    | none =>
      cases hg : objGet m.formatters m.config.translationsFormat with
      | none => simp [getFormatter, hf, hg] at h
      | some factory =>
        have heq : getFormatter m = .ok (factory m.config,
            { m with formatter := some (factory m.config) }) := by
          simp [getFormatter, hf, hg]
        rw [heq] at h
        have hp : factory m.config = f ∧
            ({ m with formatter := some (factory m.config) } : I18nManager F)
              = m' := by
          cases h
          exact ⟨rfl, rfl⟩
        obtain ⟨hpf, hpm⟩ := hp
        subst hpf
        subst hpm
        refine ⟨rfl, ?_⟩
        simp [getFormatter]

/-- C8 witness: first use instantiates and caches the registered icu
factory's instance. -/
theorem claim_C8_witness :
    getFormatter wmgr8 = .ok (42, { wmgr8 with formatter := some 42 }) :=
  (claim_C8_formatter_singleton wmgr8).2.1 wicuNat rfl rfl

/-- C9: `getSupportedLocaleFor` returns none when no supported locale
matches any parsed preference (in particular for an empty or entirely
unparseable preference list); a returned locale is a supported locale
whose matched weight is maximal among all matching supported locales;
whenever some supported locale does match a preference the call returns a
locale (non-null), provided the empty string is not itself a supported
locale — only a supported empty string can be swallowed by the trailing
`|| null`; and the result depends only on `supportedLocales()`, so the
call has no side effects and works before any translations are loaded.
The negotiation itself is modelled from the spec, the source delegating
it to the external negotiator package. -/
theorem claim_C9_negotiation {F : Type} (m : I18nManager F)
    (u : UserLanguage) :
    ((∀ loc ∈ supportedLocales m,
        scoreLocale (parseAcceptLanguage (joinUserLanguage u)) loc = none) →
      getSupportedLocaleFor m u = none) ∧
    (∀ loc, getSupportedLocaleFor m u = some loc →
      loc ∈ supportedLocales m ∧
      ∃ q, scoreLocale (parseAcceptLanguage (joinUserLanguage u)) loc
          = some q ∧
        ∀ loc' q', loc' ∈ supportedLocales m →
          scoreLocale (parseAcceptLanguage (joinUserLanguage u)) loc'
            = some q' → q'.1 ≤ q.1) ∧
    (∀ loc q, loc ∈ supportedLocales m →
      scoreLocale (parseAcceptLanguage (joinUserLanguage u)) loc = some q →
      ("" : String) ∉ supportedLocales m →
      ∃ r, getSupportedLocaleFor m u = some r) ∧
    (∀ t : I18nManager F, supportedLocales m = supportedLocales t →
      getSupportedLocaleFor m u = getSupportedLocaleFor t u) := by
  refine ⟨?_, ?_, ?_, ?_⟩
  · intro h
    unfold getSupportedLocaleFor negotiateLanguage
    rw [pickBest_skip_all _ _ h]
  · intro loc h
    unfold getSupportedLocaleFor at h
    cases hneg : negotiateLanguage (joinUserLanguage u)
        (supportedLocales m) with
    | none =>
      rw [hneg] at h
      cases h
    | some r =>
      rw [hneg] at h
      replace h : (if r = "" then none else some r) = some loc := h
      by_cases hr : r = ""
      · rw [if_pos hr] at h
        cases h
      · rw [if_neg hr] at h
        have hrl : r = loc := by
          cases h
          rfl
        subst hrl
        exact pickBest_sound (supportedLocales m)
          (scoreLocale (parseAcceptLanguage (joinUserLanguage u))) r hneg
  · intro loc q hmem hscore hns
    obtain ⟨r, hr⟩ := pickBest_some_of_mem (supportedLocales m)
      (scoreLocale (parseAcceptLanguage (joinUserLanguage u))) loc q hmem
      hscore
    have hneg : negotiateLanguage (joinUserLanguage u) (supportedLocales m)
        = some r := hr
    have hrs : r ∈ supportedLocales m := (pickBest_sound _ _ r hr).1
    have hre : r ≠ "" := fun he => hns (he ▸ hrs)
    refine ⟨r, ?_⟩
    unfold getSupportedLocaleFor
    rw [hneg]
    show (if r = "" then none else some r) = some r
    rw [if_neg hre]
  · intro t h
    unfold getSupportedLocaleFor negotiateLanguage
    rw [h]

/-- C9 witness: the preference xx-unmatched matches neither of the
supported locales en, fr and yields none, while the weighted preference
fr-CA;q=0.9,en;q=0.5 matches the supported fr and yields a locale. -/
theorem claim_C9_witness :
    getSupportedLocaleFor wmgr9 (UserLanguage.many ["xx-unmatched"]) = none ∧
    ∃ r, getSupportedLocaleFor wmgr9
      (UserLanguage.single "fr-CA;q=0.9,en;q=0.5") = some r :=
  ⟨(claim_C9_negotiation wmgr9 (UserLanguage.many ["xx-unmatched"])).1
      (by decide),
    (claim_C9_negotiation wmgr9
        (UserLanguage.single "fr-CA;q=0.9,en;q=0.5")).2.2.1 "fr" (900, 1)
      (by decide) (by decide) (by decide)⟩
